import Mathlib

/-!
Shallow embedding of the dependency-graph container from `src/lib.rs`
(`DependencyGraph`), together with proofs about its operations.

Rust `isize` refcounts are modelled as `Int` (the code asserts they stay
nonnegative, far from any overflow boundary); `usize` node ids and slot ids
as `Nat`.  Fallible code paths — the Rust `panic!`/`assert!` calls — are
modelled by `Option`/a dedicated result type, with `none`/`.fatal` marking
the fatal abort.  The recursive refcount propagator is given an explicit
fuel argument so that it is structurally recursive and kernel-computable;
a proved lemma shows fuel `countFalse seen + 1` always suffices, and the
wrappers pass `nodes.length + 1`, which is at least that for the fresh
`seen` vectors the code allocates.
-/

namespace DepGraph

/-- One graph node (Rust `Node<K,P>`): caller-supplied key, transitive
inbound refcount, optional payload, and slot-addressed outgoing relations. -/
structure Node (K P : Type) where
  key : K
  refcount : Int
  payload : Option P
  relations : List (Option Nat)
  deriving DecidableEq, Repr

/-- The graph (Rust `DependencyGraph<K,T>`): a slot vector of optional
nodes plus a free list of vacated slot indices. -/
structure DependencyGraph (K P : Type) where
  nodes : List (Option (Node K P))
  vacancies : List Nat
  deriving DecidableEq, Repr

/-- A slot-addressed dependency write: target key `none` clears the slot. -/
structure RelationLink (K : Type) where
  slot_id : Nat
  key : Option K
  deriving DecidableEq, Repr

variable {K P : Type}

/-- Rust `DependencyGraph::new()` — empty slot vector, empty free list. -/
def new : DependencyGraph K P := ⟨[], []⟩

/-- Rust `len()` — the length of the slot vector (vacant slots included). -/
def len (g : DependencyGraph K P) : Nat := g.nodes.length

/-- Rust `is_empty()` — whether the slot vector is empty. -/
def is_empty (g : DependencyGraph K P) : Bool := g.nodes.isEmpty

/-- Rust `keys()` — the keys of all allocated (occupied) slots, in slot order. -/
def keys (g : DependencyGraph K P) : List K :=
  g.nodes.filterMap (fun i => match i with
    | some nd => some nd.key
    | none => none)

/-- The node-lookup predicate used by `get_payload` / `remove_payload` /
`assert_node`: an occupied slot whose node carries the given key. -/
def keyPred [DecidableEq K] (key : K) : Option (Node K P) → Bool :=
  fun i => match i with
    | some nd => decide (nd.key = key)
    | none => false

/-- Rust `get_payload(key)` — payload of the first node with this key
(`none` when the key is absent, and also when the node is a phantom). -/
def get_payload [DecidableEq K] (g : DependencyGraph K P) (key : K) : Option P :=
  match g.nodes.find? (keyPred key) with
  | some (some nd) => nd.payload
  | _ => none

/-- Result of one propagation run (Rust `increment`): `fatal` stands for the
Rust panics (missing node, out-of-range seen index, refcount assert failure);
`fuelOut` is the artificial out-of-fuel marker, proved unreachable for
sufficient fuel. -/
inductive IncrOut (K P : Type) where
  | fuelOut
  | fatal
  | ok (nodes : List (Option (Node K P))) (seen : List Bool)
  deriving DecidableEq, Repr

/-- Rust `DependencyGraph::increment(node_id, increment, seen)` — the
cycle-guarded refcount propagator.  Mirrors the source line by line: bail
out if `seen[node_id]` is already true; mark it seen (fatal if the index is
out of range, as the Rust slice write would be); apply the delta to the
node's refcount (fatal if the slot is vacant or the result is negative,
where the source panics / asserts); then recurse into the node's populated
relation targets in order, threading the mutated state. -/
def increment [DecidableEq K] (fuel : Nat) (nodes : List (Option (Node K P)))
    (node_id : Nat) (delta : Int) (seen : List Bool) : IncrOut K P :=
  match fuel with
  | 0 => .fuelOut
  | fuel + 1 =>
    if seen.get? node_id = some true then
      .ok nodes seen
    else if node_id < seen.length then
      let seen1 := seen.set node_id true
      match nodes.get? node_id with
      | some (some nd) =>
        let rc := nd.refcount + delta
        if rc < 0 then .fatal
        else
          let nodes1 := nodes.set node_id (some { nd with refcount := rc })
          (nd.relations.filterMap id).foldl
            (fun acc rel => match acc with
              | .ok ns ss => increment fuel ns rel delta ss
              | e => e)
            (.ok nodes1 seen1)
      | _ => .fatal
    else .fatal

/-- Sequential propagation into a list of targets, threading state — the
`for rel_node_id in relations { self.increment(...) }` loop body, split out
so that lemmas can talk about it. -/
def incrementList [DecidableEq K] (fuel : Nat) (nodes : List (Option (Node K P)))
    (rels : List Nat) (delta : Int) (seen : List Bool) : IncrOut K P :=
  rels.foldl
    (fun acc rel => match acc with
      | .ok ns ss => increment fuel ns rel delta ss
      | e => e)
    (.ok nodes seen)

/-- Rust `assert_node(key)` — return the node id for `key`, creating a
phantom node in a recycled vacancy (popped from the back of the free list,
as `Vec::pop` does) or appended at the end. -/
def assert_node [DecidableEq K] (g : DependencyGraph K P) (key : K) :
    Nat × DependencyGraph K P :=
  match g.nodes.findIdx? (keyPred key) with
  | some node_id => (node_id, g)
  | none =>
    let nd : Node K P := ⟨key, 0, none, []⟩
    match g.vacancies.getLast? with
    | some node_id => (node_id, ⟨g.nodes.set node_id (some nd), g.vacancies.dropLast⟩)
    | none => (g.nodes.length, ⟨g.nodes ++ [some nd], g.vacancies⟩)

/-- The `while Node.relations.len() <= slot_id { push(None) }` padding loop:
extend the slot array with `none` entries so that index `slot` exists. -/
def padTo (rels : List (Option Nat)) (slot : Nat) : List (Option Nat) :=
  rels ++ List.replicate (slot + 1 - rels.length) none

/-- The slot write inside `set_relation`'s write phase: node `v`'s slot
array padded with `none` so that index `s` exists, then slot `s` set to
`tgt`. -/
def slotWritten (nodes : List (Option (Node K P))) (v : Nat) (nd2 : Node K P)
    (s : Nat) (tgt : Option Nat) : List (Option (Node K P)) :=
  nodes.set v (some { nd2 with relations := (padTo nd2.relations s).set s tgt })

/-- The final propagation of the write phase of Rust `set_relation`: apply
the increment `1 + refcount` to the freshly written relation target with a
fresh seen vector; `none` models the source's panics and the refcount
assert. -/
def set_relation_incr [DecidableEq K] (vac2 : List Nat)
    (nodes3 : List (Option (Node K P))) (new_rel_node_id : Nat) (inc : Int) :
    Option (DependencyGraph K P) :=
  match increment (nodes3.length + 1) nodes3 new_rel_node_id inc
      (List.replicate nodes3.length false) with
  | .ok ns _ => some ⟨ns, vac2⟩
  | _ => none

/-- The write phase of Rust `set_relation` (lines after the decrement):
when a new key is present, assert its node, write it into the slot (growing
the slot array as needed) and propagate the increment `1 + refcount` into
it via `set_relation_incr`; when the new key is absent, just clear the
slot.  `vac` is the current free list (only `assert_node` can touch it),
`nodes1` the node vector after the decrement phase. -/
def set_relation_write [DecidableEq K] (vac : List Nat)
    (nodes1 : List (Option (Node K P))) (node_id : Nat) (link : RelationLink K) :
    Option (DependencyGraph K P) :=
  match link.key with
  | some key =>
    match assert_node (⟨nodes1, vac⟩ : DependencyGraph K P) key with
    | (new_rel_node_id, g2) =>
      match g2.nodes.get? node_id with
      | some (some nd2) =>
        set_relation_incr g2.vacancies
          (slotWritten g2.nodes node_id nd2 link.slot_id (some new_rel_node_id))
          new_rel_node_id (1 + nd2.refcount)
      | _ => none
  | none =>
    match nodes1.get? node_id with
    | some (some nd2) =>
      some ⟨slotWritten nodes1 node_id nd2 link.slot_id none, vac⟩
    | _ => none

/-- The tail of Rust `set_relation` after the occupant inspection: back out
the previous occupant's contribution (when `remove` carries one) via the
propagator with a fresh seen vector, then run the write phase. -/
def set_relation_go [DecidableEq K] (g : DependencyGraph K P) (node_id : Nat)
    (link : RelationLink K) (remove : Option (Nat × Int)) :
    Option (DependencyGraph K P) :=
  match remove with
  | none => set_relation_write g.vacancies g.nodes node_id link
  | some (rel_node_id, dec) =>
    match increment (g.nodes.length + 1) g.nodes rel_node_id dec
        (List.replicate g.nodes.length false) with
    | .ok ns _ => set_relation_write g.vacancies ns node_id link
    | _ => none

/-- Rust `set_relation(node_id, link)` — inspect the current occupant of the
slot; if its key equals the new key, return unchanged (the no-op fast path);
otherwise schedule the decrement `-(1 + refcount)` of the old occupant and
run the write via `set_relation_go`. -/
def set_relation [DecidableEq K] (g : DependencyGraph K P) (node_id : Nat)
    (link : RelationLink K) : Option (DependencyGraph K P) :=
  match g.nodes.get? node_id with
  | some (some nd) =>
    match nd.relations.get? link.slot_id with
    | some (some rel_node_id) =>
      match g.nodes.get? rel_node_id with
      | some (some rel_nd) =>
        if (some rel_nd.key : Option K) = link.key then
          some g
        else
          set_relation_go g node_id link (some (rel_node_id, 0 - (1 + nd.refcount)))
      | _ => none
    | _ => set_relation_go g node_id link none
  | _ => none

/-- Rust `set_payload(key, dependencies, payload)` — assert the node, store
the payload (overwriting any previous one), then apply each dependency slot
write in order. -/
def set_payload [DecidableEq K] (g : DependencyGraph K P) (key : K)
    (dependencies : List (RelationLink K)) (payload : P) :
    Option (DependencyGraph K P) :=
  match assert_node g key with
  | (node_id, g1) =>
    match g1.nodes.get? node_id with
    | none => none
    | some none =>
      dependencies.foldl
        (fun acc link => acc.bind (fun g => set_relation g node_id link))
        (some g1)
    | some (some nd) =>
      dependencies.foldl
        (fun acc link => acc.bind (fun g => set_relation g node_id link))
        (some (⟨g1.nodes.set node_id (some { nd with payload := some payload }),
          g1.vacancies⟩ : DependencyGraph K P))

/-- The decrement loop at the end of Rust `remove_payload`: propagate the
recorded decrement into each recorded relation target with a fresh seen
vector of the recorded pre-removal length per target, threading the node
vector. -/
def remove_decrements [DecidableEq K] (nodes_len : Nat) (decrement : Int)
    (relations : List Nat) (ns0 : List (Option (Node K P))) :
    Option (List (Option (Node K P))) :=
  relations.foldl
    (fun acc rel_node_id => acc.bind (fun ns =>
      match increment (nodes_len + 1) ns rel_node_id decrement
          (List.replicate nodes_len false) with
      | .ok ns2 _ => some ns2
      | _ => none))
    (some ns0)

/-- Rust `remove_payload(key)` — no-op when the key is absent; otherwise
record the populated relation targets, clear the slots, free the node when
its own refcount is 0 (vacancy pushed) or tombstone it to a phantom, then
run `remove_decrements` with decrement `-(refcount + 1)`. -/
def remove_payload [DecidableEq K] (g : DependencyGraph K P) (key : K) :
    Option (DependencyGraph K P) :=
  match g.nodes.findIdx? (keyPred key) with
  | none => some g
  | some node_id =>
    match g.nodes.get? node_id with
    | some (some nd) =>
      (remove_decrements g.nodes.length (0 - (nd.refcount + 1))
        (nd.relations.filterMap id)
        (if nd.refcount = 0 then g.nodes.set node_id none
         else g.nodes.set node_id
           (some { nd with payload := none, relations := [] }))).map
        (fun ns => (⟨ns,
          if nd.refcount = 0 then g.vacancies ++ [node_id] else g.vacancies⟩ :
          DependencyGraph K P))
    | _ => none

/-- One record yielded by the iterator (Rust `Subjectpayload`).  The Rust
`refcount as usize` cast is modelled with `Int.toNat`; the propagator's
assert keeps refcounts nonnegative in every state the iterator can see. -/
structure Subjectpayload (K P : Type) where
  key : K
  payload : P
  from_keys : List K
  to_keys : List K
  refcount : Nat
  deriving DecidableEq, Repr

/-- The relation-target keys of one node's slot array; `none` models the
iterator's panic on a relation id whose slot is vacant. -/
def relationKeys (nodes : List (Option (Node K P))) (rels : List (Option Nat)) :
    Option (List K) :=
  rels.foldr
    (fun r acc => match acc, r with
      | none, _ => none
      | some ks, none => some ks
      | some ks, some nid =>
        match nodes.get? nid with
        | some (some nd) => some (nd.key :: ks)
        | _ => none)
    (some [])

/-- The unsorted snapshot built by `SubjectpayloadIter::new`: one record per
resident (payload-bearing) node, in slot order; phantom nodes and vacant
slots are skipped. -/
def subjectPayloads (nodes : List (Option (Node K P))) :
    Option (List (Subjectpayload K P)) :=
  nodes.foldr
    (fun i acc => match acc with
      | none => none
      | some rest =>
        match i with
        | some nd =>
          match nd.payload with
          | some p =>
            match relationKeys nodes nd.relations with
            | some tks =>
              some ({ key := nd.key, payload := p, from_keys := [],
                      to_keys := tks, refcount := nd.refcount.toNat } :: rest)
            | none => none
          | none => some rest
        | none => some rest)
    (some [])

/-- Stable insertion of one record into an ascending-by-refcount list:
existing smaller-refcount entries are kept in front, and the new entry goes
before equal-refcount ones it preceded in the snapshot. -/
def insSorted (x : Subjectpayload K P) :
    List (Subjectpayload K P) → List (Subjectpayload K P)
  | [] => [x]
  | y :: ys => if y.refcount < x.refcount then y :: insSorted x ys else x :: y :: ys

/-- The stable ascending-by-refcount sort applied by the iterator
constructor (Rust's `sort_by(|a, b| a.refcount.cmp(&b.refcount))` is a
stable sort; stable insertion sort produces the identical permutation). -/
def sortByRefcount (l : List (Subjectpayload K P)) : List (Subjectpayload K P) :=
  l.foldr insSorted []

/-- Rust `subject_payload_iter()` flattened into the full yield sequence:
the iterator pops from the back of the ascending-sorted snapshot, so the
yielded order is the reverse of the sort — descending refcount. -/
def subject_payload_iter (g : DependencyGraph K P) :
    Option (List (Subjectpayload K P)) :=
  (subjectPayloads g.nodes).map (fun l => (sortByRefcount l).reverse)

/-- The keys of the yield sequence, in yield order. -/
def iterKeys (g : DependencyGraph K P) : Option (List K) :=
  (subject_payload_iter g).map (fun l => l.map (fun e => e.key))

end DepGraph

namespace DepGraph

variable {K P : Type}

/-! ### Basic equations for the propagator -/

theorem lt_of_get?_eq_some {α : Type} {l : List α} {n : Nat} {a : α}
    (h : l.get? n = some a) : n < l.length := by
  by_contra hn
  rw [List.get?_eq_none.mpr (Nat.le_of_not_lt hn)] at h
  exact Option.noConfusion h

theorem incrementList_nil [DecidableEq K] (fuel : Nat)
    (nodes : List (Option (Node K P))) (delta : Int) (seen : List Bool) :
    incrementList fuel nodes [] delta seen = .ok nodes seen := rfl

theorem foldl_fatal_absorb [DecidableEq K] (fuel : Nat) (rs : List Nat) (delta : Int) :
    rs.foldl
      (fun acc rel => match acc with
        | IncrOut.ok ns ss => increment (K := K) (P := P) fuel ns rel delta ss
        | e => e)
      IncrOut.fatal = IncrOut.fatal := by
  induction rs with
  | nil => rfl
  | cons r rs ih => simpa using ih

theorem foldl_fuelOut_absorb [DecidableEq K] (fuel : Nat) (rs : List Nat) (delta : Int) :
    rs.foldl
      (fun acc rel => match acc with
        | IncrOut.ok ns ss => increment (K := K) (P := P) fuel ns rel delta ss
        | e => e)
      IncrOut.fuelOut = IncrOut.fuelOut := by
  induction rs with
  | nil => rfl
  | cons r rs ih => simpa using ih

theorem incrementList_cons [DecidableEq K] (fuel : Nat)
    (nodes : List (Option (Node K P))) (r : Nat) (rs : List Nat) (delta : Int)
    (seen : List Bool) :
    incrementList fuel nodes (r :: rs) delta seen =
      match increment fuel nodes r delta seen with
      | .ok ns ss => incrementList fuel ns rs delta ss
      | e => e := by
  unfold incrementList
  simp only [List.foldl_cons]
  cases h : increment fuel nodes r delta seen with
  | ok ns ss => rfl
  | fatal => exact foldl_fatal_absorb fuel rs delta
  | fuelOut => exact foldl_fuelOut_absorb fuel rs delta

theorem increment_zero [DecidableEq K] (nodes : List (Option (Node K P)))
    (node_id : Nat) (delta : Int) (seen : List Bool) :
    increment 0 nodes node_id delta seen = .fuelOut := rfl

theorem increment_bail [DecidableEq K] (fuel : Nat) (nodes : List (Option (Node K P)))
    (node_id : Nat) (delta : Int) (seen : List Bool)
    (h : seen.get? node_id = some true) :
    increment (fuel + 1) nodes node_id delta seen = .ok nodes seen := by
  unfold increment
  rw [if_pos h]

theorem increment_succ_main [DecidableEq K] (fuel : Nat)
    (nodes : List (Option (Node K P))) (node_id : Nat) (delta : Int)
    (seen : List Bool) (nd : Node K P)
    (h1 : ¬ seen.get? node_id = some true) (h2 : node_id < seen.length)
    (h3 : nodes.get? node_id = some (some nd))
    (h4 : ¬ nd.refcount + delta < 0) :
    increment (fuel + 1) nodes node_id delta seen =
      incrementList fuel
        (nodes.set node_id (some { nd with refcount := nd.refcount + delta }))
        (nd.relations.filterMap id) delta (seen.set node_id true) := by
  unfold increment incrementList
  rw [if_neg h1, if_pos h2, h3]
  simp only [if_neg h4]

/-! ### The per-propagation state description

`IncStep delta nodes seen nodes' seen'` records everything one propagation
run guarantees: lengths are preserved, keys/payloads/relations are
untouched, the seen vector only ever flips `false` entries to `true`, and a
node's refcount moved by exactly `delta` precisely when its seen flag was
newly set — the delta lands on each visited vertex exactly once. -/

/-- Key, payload and relations of the node at slot `i` (refcount erased). -/
def shapeAt (nodes : List (Option (Node K P))) (i : Nat) :
    Option (Option (K × Option P × List (Option Nat))) :=
  (nodes.get? i).map (Option.map (fun nd => (nd.key, nd.payload, nd.relations)))

/-- Refcount of the node at slot `i`, when that slot is allocated. -/
def rcAt (nodes : List (Option (Node K P))) (i : Nat) : Option Int :=
  match nodes.get? i with
  | some (some nd) => some nd.refcount
  | _ => none

def IncStep (delta : Int) (nodes : List (Option (Node K P))) (seen : List Bool)
    (nodes' : List (Option (Node K P))) (seen' : List Bool) : Prop :=
  nodes'.length = nodes.length ∧ seen'.length = seen.length ∧
  (∀ i, shapeAt nodes' i = shapeAt nodes i) ∧
  (∀ i, seen'.get? i = seen.get? i ∨
    (seen.get? i = some false ∧ seen'.get? i = some true)) ∧
  (∀ i, rcAt nodes' i =
    if seen'.get? i = some true ∧ ¬ seen.get? i = some true
    then (rcAt nodes i).map (fun x => x + delta) else rcAt nodes i)

theorem IncStep.refl (delta : Int) (nodes : List (Option (Node K P)))
    (seen : List Bool) : IncStep delta nodes seen nodes seen := by
  refine ⟨rfl, rfl, fun i => rfl, fun i => Or.inl rfl, fun i => ?_⟩
  rw [if_neg]
  rintro ⟨h1, h2⟩
  exact h2 h1

theorem IncStep.mono {delta : Int} {nodes : List (Option (Node K P))}
    {seen : List Bool} {nodes' : List (Option (Node K P))} {seen' : List Bool}
    (h : IncStep delta nodes seen nodes' seen') :
    ∀ i, seen.get? i = some true → seen'.get? i = some true := by
  intro i hi
  rcases h.2.2.2.1 i with h' | ⟨hf, _⟩
  · rw [h', hi]
  · rw [hi] at hf
    exact absurd (Option.some.inj hf) (by simp)

theorem IncStep.trans {delta : Int} {na : List (Option (Node K P))} {sa : List Bool}
    {nb : List (Option (Node K P))} {sb : List Bool}
    {nc : List (Option (Node K P))} {sc : List Bool}
    (hab : IncStep delta na sa nb sb) (hbc : IncStep delta nb sb nc sc) :
    IncStep delta na sa nc sc := by
  have hmab := hab.mono
  have hmbc := hbc.mono
  obtain ⟨l1, l2, sh1, se1, rc1⟩ := hab
  obtain ⟨l1', l2', sh1', se1', rc1'⟩ := hbc
  refine ⟨l1'.trans l1, l2'.trans l2, fun i => (sh1' i).trans (sh1 i), fun i => ?_,
    fun i => ?_⟩
  · rcases se1' i with h' | ⟨hf', ht'⟩
    · rcases se1 i with h | ⟨hf, ht⟩
      · exact Or.inl (h'.trans h)
      · exact Or.inr ⟨hf, h'.trans ht⟩
    · rcases se1 i with h | ⟨hf, ht⟩
      · exact Or.inr ⟨h ▸ hf', ht'⟩
      · rw [ht] at hf'
        exact absurd (Option.some.inj hf') (by simp)
  · by_cases hsa : sa.get? i = some true
    · have hsb : sb.get? i = some true := hmab i hsa
      have hsc : sc.get? i = some true := hmbc i hsb
      rw [rc1' i, rc1 i, if_neg, if_neg, if_neg]
      · rintro ⟨_, h2⟩; exact h2 hsa
      · rintro ⟨_, h2⟩; exact h2 hsa
      · rintro ⟨_, h2⟩; exact h2 hsb
    · by_cases hsb : sb.get? i = some true
      · -- newly marked in the first step: the second step leaves it alone
        have hsc : sc.get? i = some true := hmbc i hsb
        rw [rc1' i, if_neg, rc1 i, if_pos ⟨hsb, hsa⟩, if_pos ⟨hsc, hsa⟩]
        rintro ⟨_, h2⟩; exact h2 hsb
      · -- not marked after the first step
        have hb : rcAt nb i = rcAt na i := by
          rw [rc1 i, if_neg]; rintro ⟨h1, _⟩; exact hsb h1
        by_cases hsc : sc.get? i = some true
        · rw [rc1' i, if_pos ⟨hsc, hsb⟩, hb, if_pos ⟨hsc, hsa⟩]
        · rw [rc1' i, if_neg, hb, if_neg]
          · rintro ⟨h1, _⟩; exact hsc h1
          · rintro ⟨h1, _⟩; exact hsc h1

/-! ### The failure-branch equations of `increment` -/

theorem increment_oob [DecidableEq K] (fuel : Nat) (nodes : List (Option (Node K P)))
    (node_id : Nat) (delta : Int) (seen : List Bool)
    (h1 : ¬ seen.get? node_id = some true) (h2 : ¬ node_id < seen.length) :
    increment (fuel + 1) nodes node_id delta seen = .fatal := by
  unfold increment
  rw [if_neg h1, if_neg h2]

theorem increment_vacant [DecidableEq K] (fuel : Nat) (nodes : List (Option (Node K P)))
    (node_id : Nat) (delta : Int) (seen : List Bool)
    (h1 : ¬ seen.get? node_id = some true) (h2 : node_id < seen.length)
    (h3 : nodes.get? node_id = none ∨ nodes.get? node_id = some none) :
    increment (fuel + 1) nodes node_id delta seen = .fatal := by
  unfold increment
  rw [if_neg h1, if_pos h2]
  rcases h3 with h3 | h3 <;> rw [h3]

theorem increment_assert [DecidableEq K] (fuel : Nat) (nodes : List (Option (Node K P)))
    (node_id : Nat) (delta : Int) (seen : List Bool) (nd : Node K P)
    (h1 : ¬ seen.get? node_id = some true) (h2 : node_id < seen.length)
    (h3 : nodes.get? node_id = some (some nd)) (h4 : nd.refcount + delta < 0) :
    increment (fuel + 1) nodes node_id delta seen = .fatal := by
  unfold increment
  rw [if_neg h1, if_pos h2, h3]
  simp only [if_pos h4]

/-! ### Every successful propagation is an `IncStep` -/

theorem IncStep.atomic (delta : Int) (nodes : List (Option (Node K P)))
    (seen : List Bool) (node_id : Nat) (nd : Node K P)
    (h1 : ¬ seen.get? node_id = some true) (h2 : node_id < seen.length)
    (h3 : nodes.get? node_id = some (some nd)) :
    IncStep delta nodes seen
      (nodes.set node_id (some { nd with refcount := nd.refcount + delta }))
      (seen.set node_id true) := by
  have hlt : node_id < nodes.length := lt_of_get?_eq_some h3
  have hseen : seen.get? node_id = some false := by
    rw [List.get?_eq_get h2]
    rcases Bool.eq_false_or_eq_true (seen.get ⟨node_id, h2⟩) with hv | hv
    · exact absurd (by rw [List.get?_eq_get h2, hv]) h1
    · rw [hv]
  refine ⟨List.length_set .., List.length_set .., fun i => ?_, fun i => ?_, fun i => ?_⟩
  · by_cases hi : node_id = i
    · subst hi
      unfold shapeAt
      rw [List.get?_set_eq_of_lt _ hlt, h3]
      rfl
    · unfold shapeAt
      rw [List.get?_set_ne _ _ hi]
  · by_cases hi : node_id = i
    · subst hi
      exact Or.inr ⟨hseen, by rw [List.get?_set_eq_of_lt _ h2]⟩
    · exact Or.inl (by rw [List.get?_set_ne _ _ hi])
  · by_cases hi : node_id = i
    · subst hi
      rw [if_pos ⟨by rw [List.get?_set_eq_of_lt _ h2], h1⟩]
      unfold rcAt
      rw [List.get?_set_eq_of_lt _ hlt, h3]
      rfl
    · rw [if_neg]
      · unfold rcAt
        rw [List.get?_set_ne _ _ hi]
      · rintro ⟨ha, hb⟩
        rw [List.get?_set_ne _ _ hi] at ha
        exact hb ha

theorem incrementList_step_of [DecidableEq K] (fuel : Nat)
    (H : ∀ (nodes : List (Option (Node K P))) (node_id : Nat) (delta : Int)
      (seen : List Bool) (n : List (Option (Node K P))) (s : List Bool),
      increment fuel nodes node_id delta seen = .ok n s → IncStep delta nodes seen n s) :
    ∀ (rels : List Nat) (nodes : List (Option (Node K P))) (delta : Int)
      (seen : List Bool) (n : List (Option (Node K P))) (s : List Bool),
      incrementList fuel nodes rels delta seen = .ok n s → IncStep delta nodes seen n s := by
  intro rels
  induction rels with
  | nil =>
    intro nodes delta seen n s h
    rw [incrementList_nil] at h
    injection h with hn hs
    subst hn; subst hs
    exact .refl ..
  | cons r rs ih =>
    intro nodes delta seen n s h
    rw [incrementList_cons] at h
    cases hr : increment fuel nodes r delta seen with
    | ok n1 s1 =>
      rw [hr] at h
      exact (H _ _ _ _ _ _ hr).trans (ih _ _ _ _ _ h)
    | fatal => rw [hr] at h; exact IncrOut.noConfusion h
    | fuelOut => rw [hr] at h; exact IncrOut.noConfusion h

theorem increment_step [DecidableEq K] :
    ∀ (fuel : Nat) (nodes : List (Option (Node K P))) (node_id : Nat) (delta : Int)
      (seen : List Bool) (n : List (Option (Node K P))) (s : List Bool),
      increment fuel nodes node_id delta seen = .ok n s → IncStep delta nodes seen n s := by
  intro fuel
  induction fuel with
  | zero => intro nodes node_id delta seen n s h; exact IncrOut.noConfusion h
  | succ fuel ih =>
    intro nodes node_id delta seen n s h
    by_cases h1 : seen.get? node_id = some true
    · rw [increment_bail _ _ _ _ _ h1] at h
      injection h with hn hs
      subst hn; subst hs
      exact .refl ..
    · by_cases h2 : node_id < seen.length
      · cases h3 : nodes.get? node_id with
        | none =>
          rw [increment_vacant _ _ _ _ _ h1 h2 (Or.inl h3)] at h
          exact IncrOut.noConfusion h
        | some x =>
          cases x with
          | none =>
            rw [increment_vacant _ _ _ _ _ h1 h2 (Or.inr h3)] at h
            exact IncrOut.noConfusion h
          | some nd =>
            by_cases h4 : nd.refcount + delta < 0
            · rw [increment_assert _ _ _ _ _ _ h1 h2 h3 h4] at h
              exact IncrOut.noConfusion h
            · rw [increment_succ_main _ _ _ _ _ _ h1 h2 h3 h4] at h
              exact (IncStep.atomic delta nodes seen node_id nd h1 h2 h3).trans
                (incrementList_step_of fuel ih _ _ _ _ _ _ h)
      · rw [increment_oob _ _ _ _ _ h1 h2] at h
        exact IncrOut.noConfusion h

theorem incrementList_step [DecidableEq K] (fuel : Nat)
    (rels : List Nat) (nodes : List (Option (Node K P))) (delta : Int)
    (seen : List Bool) (n : List (Option (Node K P))) (s : List Bool)
    (h : incrementList fuel nodes rels delta seen = .ok n s) :
    IncStep delta nodes seen n s :=
  incrementList_step_of fuel (increment_step fuel) rels nodes delta seen n s h

/-! ### Fuel sufficiency: the propagator terminates

`countFalse seen` bounds the depth of the recursion: every recursive level
marks one more `false` entry `true`, so fuel `countFalse seen + 1` never
runs out.  The wrappers pass `nodes.length + 1 = countFalse seen + 1` for
the fresh all-`false` seen vectors the source allocates. -/

def countFalse (seen : List Bool) : Nat := (seen.filter (fun b => !b)).length

theorem countFalse_cons (b : Bool) (bs : List Bool) :
    countFalse (b :: bs) = (if b then 0 else 1) + countFalse bs := by
  cases b <;> simp [countFalse] <;> omega

theorem get?_eq_some_false {seen : List Bool} {i : Nat}
    (h1 : ¬ seen.get? i = some true) (h2 : i < seen.length) :
    seen.get? i = some false := by
  rw [List.get?_eq_get h2]
  rcases Bool.eq_false_or_eq_true (seen.get ⟨i, h2⟩) with hv | hv
  · exact absurd (by rw [List.get?_eq_get h2, hv]) h1
  · rw [hv]

theorem countFalse_set_true :
    ∀ (seen : List Bool) (i : Nat), seen.get? i = some false →
      countFalse (seen.set i true) + 1 = countFalse seen := by
  intro seen
  induction seen with
  | nil => intro i h; exact absurd h (by simp)
  | cons b bs ih =>
    intro i h
    cases i with
    | zero =>
      have hb : b = false := by simpa using h
      subst hb
      simp [List.set, countFalse_cons]
      omega
    | succ i =>
      have h' : bs.get? i = some false := by simpa using h
      simp only [List.set, countFalse_cons]
      have := ih i h'
      omega

theorem countFalse_mono_pointwise :
    ∀ (seen seen' : List Bool), seen'.length = seen.length →
      (∀ i, seen'.get? i = seen.get? i ∨
        (seen.get? i = some false ∧ seen'.get? i = some true)) →
      countFalse seen' ≤ countFalse seen := by
  intro seen
  induction seen with
  | nil =>
    intro seen' hl _
    cases seen' with
    | nil => exact Nat.le_refl _
    | cons b bs => simp at hl
  | cons b bs ih =>
    intro seen' hl hp
    cases seen' with
    | nil => simp at hl
    | cons b' bs' =>
      have h0 := hp 0
      simp only [List.get?] at h0
      have htail : ∀ i, bs'.get? i = bs.get? i ∨
          (bs.get? i = some false ∧ bs'.get? i = some true) := by
        intro i
        have := hp (i + 1)
        simpa using this
      have hrec := ih bs' (by simpa using hl) htail
      rw [countFalse_cons, countFalse_cons]
      rcases h0 with h0 | ⟨hb, hb'⟩
      · have : b' = b := Option.some.inj h0
        subst this
        omega
      · have hb2 : b = false := Option.some.inj hb
        have hb2' : b' = true := Option.some.inj hb'
        subst hb2; subst hb2'
        simp
        omega

theorem IncStep.countFalse_le {delta : Int} {nodes : List (Option (Node K P))}
    {seen : List Bool} {n : List (Option (Node K P))} {s : List Bool}
    (h : IncStep delta nodes seen n s) : countFalse s ≤ countFalse seen :=
  countFalse_mono_pointwise seen s h.2.1 h.2.2.2.1

theorem incrementList_no_fuelOut_of [DecidableEq K] (fuel : Nat)
    (H : ∀ (nodes : List (Option (Node K P))) (node_id : Nat) (delta : Int)
      (seen : List Bool), countFalse seen + 1 ≤ fuel →
      increment fuel nodes node_id delta seen ≠ .fuelOut) :
    ∀ (rels : List Nat) (nodes : List (Option (Node K P))) (delta : Int)
      (seen : List Bool), countFalse seen + 1 ≤ fuel →
      incrementList fuel nodes rels delta seen ≠ .fuelOut := by
  intro rels
  induction rels with
  | nil =>
    intro nodes delta seen _
    rw [incrementList_nil]
    simp
  | cons r rs ih =>
    intro nodes delta seen hf
    rw [incrementList_cons]
    cases hr : increment fuel nodes r delta seen with
    | ok n1 s1 =>
      have hstep := increment_step fuel _ _ _ _ _ _ hr
      have hle : countFalse s1 ≤ countFalse seen := hstep.countFalse_le
      exact ih n1 delta s1 (by omega)
    | fatal => simp
    | fuelOut => exact absurd hr (H _ _ _ _ hf)

theorem increment_no_fuelOut [DecidableEq K] :
    ∀ (fuel : Nat) (nodes : List (Option (Node K P))) (node_id : Nat)
      (delta : Int) (seen : List Bool), countFalse seen + 1 ≤ fuel →
      increment fuel nodes node_id delta seen ≠ .fuelOut := by
  intro fuel
  induction fuel with
  | zero => intro _ _ _ _ h; exact absurd h (by omega)
  | succ fuel ih =>
    intro nodes node_id delta seen hf
    by_cases h1 : seen.get? node_id = some true
    · rw [increment_bail _ _ _ _ _ h1]; simp
    · by_cases h2 : node_id < seen.length
      · cases h3 : nodes.get? node_id with
        | none => rw [increment_vacant _ _ _ _ _ h1 h2 (Or.inl h3)]; simp
        | some x =>
          cases x with
          | none => rw [increment_vacant _ _ _ _ _ h1 h2 (Or.inr h3)]; simp
          | some nd =>
            by_cases h4 : nd.refcount + delta < 0
            · rw [increment_assert _ _ _ _ _ _ h1 h2 h3 h4]; simp
            · rw [increment_succ_main _ _ _ _ _ _ h1 h2 h3 h4]
              apply incrementList_no_fuelOut_of fuel ih
              have := countFalse_set_true seen node_id (get?_eq_some_false h1 h2)
              omega
      · rw [increment_oob _ _ _ _ _ h1 h2]; simp

/-! ### Reachability: the set a propagation visits

With a fresh all-`false` seen vector — which is what every top-level call
in the source allocates — the set of vertices that receive the delta is
exactly the set of vertices transitively reachable from the start vertex
through populated relation slots. -/

/-- The populated relation targets of the node at slot `i` (empty for a
vacant slot or a phantom-free index); phrased via `shapeAt` so that it is
invariant under refcount-only updates by construction. -/
def relationsOf (nodes : List (Option (Node K P))) (i : Nat) : List Nat :=
  match shapeAt nodes i with
  | some (some (_, _, rels)) => rels.filterMap id
  | _ => []

theorem relationsOf_node {nodes : List (Option (Node K P))} {i : Nat} {nd : Node K P}
    (h : nodes.get? i = some (some nd)) :
    relationsOf nodes i = nd.relations.filterMap id := by
  unfold relationsOf shapeAt
  rw [h]
  rfl

/-- `Reaches nodes a b`: vertex `b` is `a` itself or transitively reachable
from `a` along populated relation slots. -/
def Reaches (nodes : List (Option (Node K P))) (a b : Nat) : Prop :=
  Relation.ReflTransGen (fun x y => y ∈ relationsOf nodes x) a b

theorem relationsOf_eq_of_shape {n nodes : List (Option (Node K P))}
    (h : ∀ i, shapeAt n i = shapeAt nodes i) (i : Nat) :
    relationsOf n i = relationsOf nodes i := by
  unfold relationsOf
  rw [h i]

theorem reaches_of_shape {n nodes : List (Option (Node K P))}
    (h : ∀ i, shapeAt n i = shapeAt nodes i) {a b : Nat}
    (hr : Reaches n a b) : Reaches nodes a b := by
  induction hr with
  | refl => exact Relation.ReflTransGen.refl
  | tail hab hbc ih =>
    exact ih.tail (by rw [← relationsOf_eq_of_shape h]; exact hbc)

theorem replicate_false_not_true (L i : Nat) :
    ¬ (List.replicate L false).get? i = some true := by
  intro h
  by_cases hi : i < L
  · rw [List.get?_eq_get (by simpa using hi)] at h
    simp at h
  · rw [List.get?_eq_none.mpr (by simpa using Nat.le_of_not_lt hi)] at h
    exact Option.noConfusion h

theorem increment_marks [DecidableEq K] (fuel : Nat)
    (nodes : List (Option (Node K P))) (node_id : Nat) (delta : Int)
    (seen : List Bool) (n : List (Option (Node K P))) (s : List Bool)
    (h : increment fuel nodes node_id delta seen = .ok n s) :
    s.get? node_id = some true := by
  cases fuel with
  | zero => exact IncrOut.noConfusion h
  | succ fuel =>
    by_cases h1 : seen.get? node_id = some true
    · rw [increment_bail _ _ _ _ _ h1] at h
      injection h with hn hs
      subst hs
      exact h1
    · by_cases h2 : node_id < seen.length
      · cases h3 : nodes.get? node_id with
        | none =>
          rw [increment_vacant _ _ _ _ _ h1 h2 (Or.inl h3)] at h
          exact IncrOut.noConfusion h
        | some x =>
          cases x with
          | none =>
            rw [increment_vacant _ _ _ _ _ h1 h2 (Or.inr h3)] at h
            exact IncrOut.noConfusion h
          | some nd =>
            by_cases h4 : nd.refcount + delta < 0
            · rw [increment_assert _ _ _ _ _ _ h1 h2 h3 h4] at h
              exact IncrOut.noConfusion h
            · rw [increment_succ_main _ _ _ _ _ _ h1 h2 h3 h4] at h
              have hstep := incrementList_step _ _ _ _ _ _ _ h
              exact hstep.mono node_id (by rw [List.get?_set_eq_of_lt _ h2])
      · rw [increment_oob _ _ _ _ _ h1 h2] at h
        exact IncrOut.noConfusion h

theorem incrementList_marks [DecidableEq K] (fuel : Nat) :
    ∀ (rels : List Nat) (nodes : List (Option (Node K P))) (delta : Int)
      (seen : List Bool) (n : List (Option (Node K P))) (s : List Bool),
      incrementList fuel nodes rels delta seen = .ok n s →
      ∀ r ∈ rels, s.get? r = some true := by
  intro rels
  induction rels with
  | nil => intro nodes delta seen n s _ r hr; exact absurd hr (List.not_mem_nil r)
  | cons r0 rs ih =>
    intro nodes delta seen n s h r hr
    rw [incrementList_cons] at h
    cases h0 : increment fuel nodes r0 delta seen with
    | ok n1 s1 =>
      rw [h0] at h
      rcases List.mem_cons.mp hr with hr | hr
      · subst hr
        exact (incrementList_step _ _ _ _ _ _ _ h).mono r
          (increment_marks _ _ _ _ _ _ _ h0)
      · exact ih _ _ _ _ _ h r hr
    | fatal => rw [h0] at h; exact IncrOut.noConfusion h
    | fuelOut => rw [h0] at h; exact IncrOut.noConfusion h

theorem incrementList_closed_of [DecidableEq K] (fuel : Nat)
    (H : ∀ (nodes : List (Option (Node K P))) (node_id : Nat) (delta : Int)
      (seen : List Bool) (n : List (Option (Node K P))) (s : List Bool),
      increment fuel nodes node_id delta seen = .ok n s →
      ∀ b, s.get? b = some true → ¬ seen.get? b = some true →
      ∀ c, c ∈ relationsOf nodes b → s.get? c = some true) :
    ∀ (rels : List Nat) (nodes : List (Option (Node K P))) (delta : Int)
      (seen : List Bool) (n : List (Option (Node K P))) (s : List Bool),
      incrementList fuel nodes rels delta seen = .ok n s →
      ∀ b, s.get? b = some true → ¬ seen.get? b = some true →
      ∀ c, c ∈ relationsOf nodes b → s.get? c = some true := by
  intro rels
  induction rels with
  | nil =>
    intro nodes delta seen n s h b hb hnb c hc
    rw [incrementList_nil] at h
    injection h with hn hs
    subst hs
    exact absurd hb hnb
  | cons r0 rs ih =>
    intro nodes delta seen n s h b hb hnb c hc
    rw [incrementList_cons] at h
    cases h0 : increment fuel nodes r0 delta seen with
    | ok n1 s1 =>
      rw [h0] at h
      have hstep0 := increment_step fuel _ _ _ _ _ _ h0
      have hstepR := incrementList_step fuel _ _ _ _ _ _ h
      by_cases hb1 : s1.get? b = some true
      · exact hstepR.mono c (H _ _ _ _ _ _ h0 b hb1 hnb c hc)
      · have hc1 : c ∈ relationsOf n1 b := by
          rw [relationsOf_eq_of_shape hstep0.2.2.1]
          exact hc
        exact ih _ _ _ _ _ h b hb hb1 c hc1
    | fatal => rw [h0] at h; exact IncrOut.noConfusion h
    | fuelOut => rw [h0] at h; exact IncrOut.noConfusion h

theorem increment_closed [DecidableEq K] :
    ∀ (fuel : Nat) (nodes : List (Option (Node K P))) (node_id : Nat)
      (delta : Int) (seen : List Bool) (n : List (Option (Node K P))) (s : List Bool),
      increment fuel nodes node_id delta seen = .ok n s →
      ∀ b, s.get? b = some true → ¬ seen.get? b = some true →
      ∀ c, c ∈ relationsOf nodes b → s.get? c = some true := by
  intro fuel
  induction fuel with
  | zero => intro nodes node_id delta seen n s h; exact IncrOut.noConfusion h
  | succ fuel ih =>
    intro nodes node_id delta seen n s h b hb hnb c hc
    by_cases h1 : seen.get? node_id = some true
    · rw [increment_bail _ _ _ _ _ h1] at h
      injection h with hn hs
      subst hs
      exact absurd hb hnb
    · by_cases h2 : node_id < seen.length
      · cases h3 : nodes.get? node_id with
        | none =>
          rw [increment_vacant _ _ _ _ _ h1 h2 (Or.inl h3)] at h
          exact IncrOut.noConfusion h
        | some x =>
          cases x with
          | none =>
            rw [increment_vacant _ _ _ _ _ h1 h2 (Or.inr h3)] at h
            exact IncrOut.noConfusion h
          | some nd =>
            by_cases h4 : nd.refcount + delta < 0
            · rw [increment_assert _ _ _ _ _ _ h1 h2 h3 h4] at h
              exact IncrOut.noConfusion h
            · rw [increment_succ_main _ _ _ _ _ _ h1 h2 h3 h4] at h
              by_cases hbid : b = node_id
              · subst hbid
                rw [relationsOf_node h3] at hc
                exact incrementList_marks fuel _ _ _ _ _ _ h c hc
              · have hshape : ∀ i, shapeAt
                    (nodes.set node_id (some { nd with refcount := nd.refcount + delta })) i
                    = shapeAt nodes i :=
                  (IncStep.atomic delta nodes seen node_id nd h1 h2 h3).2.2.1
                have hnb1 : ¬ (seen.set node_id true).get? b = some true := by
                  rw [List.get?_set_ne _ _ (fun he => hbid he.symm)]
                  exact hnb
                have hc1 : c ∈ relationsOf
                    (nodes.set node_id (some { nd with refcount := nd.refcount + delta })) b := by
                  rw [relationsOf_eq_of_shape hshape]
                  exact hc
                exact incrementList_closed_of fuel ih _ _ _ _ _ _ h b hb hnb1 c hc1
      · rw [increment_oob _ _ _ _ _ h1 h2] at h
        exact IncrOut.noConfusion h

theorem incrementList_sound_of [DecidableEq K] (fuel : Nat)
    (H : ∀ (nodes : List (Option (Node K P))) (node_id : Nat) (delta : Int)
      (seen : List Bool) (n : List (Option (Node K P))) (s : List Bool),
      increment fuel nodes node_id delta seen = .ok n s →
      ∀ b, s.get? b = some true →
        seen.get? b = some true ∨ Reaches nodes node_id b) :
    ∀ (rels : List Nat) (nodes : List (Option (Node K P))) (delta : Int)
      (seen : List Bool) (n : List (Option (Node K P))) (s : List Bool),
      incrementList fuel nodes rels delta seen = .ok n s →
      ∀ b, s.get? b = some true →
        seen.get? b = some true ∨ ∃ r ∈ rels, Reaches nodes r b := by
  intro rels
  induction rels with
  | nil =>
    intro nodes delta seen n s h b hb
    rw [incrementList_nil] at h
    injection h with hn hs
    subst hs
    exact Or.inl hb
  | cons r0 rs ih =>
    intro nodes delta seen n s h b hb
    rw [incrementList_cons] at h
    cases h0 : increment fuel nodes r0 delta seen with
    | ok n1 s1 =>
      rw [h0] at h
      have hstep0 := increment_step fuel _ _ _ _ _ _ h0
      rcases ih _ _ _ _ _ h b hb with hb1 | ⟨r, hrm, hrr⟩
      · rcases H _ _ _ _ _ _ h0 b hb1 with hseen | hre
        · exact Or.inl hseen
        · exact Or.inr ⟨r0, List.mem_cons_self r0 rs, hre⟩
      · exact Or.inr ⟨r, List.mem_cons_of_mem r0 hrm,
          reaches_of_shape hstep0.2.2.1 hrr⟩
    | fatal => rw [h0] at h; exact IncrOut.noConfusion h
    | fuelOut => rw [h0] at h; exact IncrOut.noConfusion h

theorem increment_sound [DecidableEq K] :
    ∀ (fuel : Nat) (nodes : List (Option (Node K P))) (node_id : Nat)
      (delta : Int) (seen : List Bool) (n : List (Option (Node K P))) (s : List Bool),
      increment fuel nodes node_id delta seen = .ok n s →
      ∀ b, s.get? b = some true →
        seen.get? b = some true ∨ Reaches nodes node_id b := by
  intro fuel
  induction fuel with
  | zero => intro nodes node_id delta seen n s h; exact IncrOut.noConfusion h
  | succ fuel ih =>
    intro nodes node_id delta seen n s h b hb
    by_cases h1 : seen.get? node_id = some true
    · rw [increment_bail _ _ _ _ _ h1] at h
      injection h with hn hs
      subst hs
      exact Or.inl hb
    · by_cases h2 : node_id < seen.length
      · cases h3 : nodes.get? node_id with
        | none =>
          rw [increment_vacant _ _ _ _ _ h1 h2 (Or.inl h3)] at h
          exact IncrOut.noConfusion h
        | some x =>
          cases x with
          | none =>
            rw [increment_vacant _ _ _ _ _ h1 h2 (Or.inr h3)] at h
            exact IncrOut.noConfusion h
          | some nd =>
            by_cases h4 : nd.refcount + delta < 0
            · rw [increment_assert _ _ _ _ _ _ h1 h2 h3 h4] at h
              exact IncrOut.noConfusion h
            · rw [increment_succ_main _ _ _ _ _ _ h1 h2 h3 h4] at h
              have hshape : ∀ i, shapeAt
                  (nodes.set node_id (some { nd with refcount := nd.refcount + delta })) i
                  = shapeAt nodes i :=
                (IncStep.atomic delta nodes seen node_id nd h1 h2 h3).2.2.1
              rcases incrementList_sound_of fuel ih _ _ _ _ _ _ h b hb with hb1 | ⟨r, hrm, hrr⟩
              · by_cases hbid : b = node_id
                · subst hbid
                  exact Or.inr Relation.ReflTransGen.refl
                · rw [List.get?_set_ne _ _ (fun he => hbid he.symm)] at hb1
                  exact Or.inl hb1
              · refine Or.inr (Relation.ReflTransGen.head ?_ (reaches_of_shape hshape hrr))
                rw [relationsOf_node h3]
                exact hrm
      · rw [increment_oob _ _ _ _ _ h1 h2] at h
        exact IncrOut.noConfusion h

theorem increment_fresh_complete [DecidableEq K] {fuel L : Nat}
    {nodes : List (Option (Node K P))} {node_id : Nat} {delta : Int}
    {n : List (Option (Node K P))} {s : List Bool}
    (h : increment fuel nodes node_id delta (List.replicate L false) = .ok n s) :
    ∀ b, Reaches nodes node_id b → s.get? b = some true := by
  intro b hr
  induction hr with
  | refl => exact increment_marks _ _ _ _ _ _ _ h
  | tail hab hbc ih =>
    exact increment_closed _ _ _ _ _ _ _ h _ ih (replicate_false_not_true L _) _ hbc

/-- The end-to-end description of one fresh-seen propagation (the shape of
every top-level call in the source): structure preserved, and the delta
applied exactly once to exactly the transitively reachable vertices. -/
theorem increment_fresh_spec [DecidableEq K] {fuel : Nat}
    {nodes : List (Option (Node K P))} {root : Nat} {delta : Int}
    {n : List (Option (Node K P))} {s : List Bool}
    (h : increment fuel nodes root delta (List.replicate nodes.length false) = .ok n s) :
    n.length = nodes.length ∧
    (∀ i, shapeAt n i = shapeAt nodes i) ∧
    (∀ i, Reaches nodes root i → rcAt n i = (rcAt nodes i).map (fun x => x + delta)) ∧
    (∀ i, ¬ Reaches nodes root i → rcAt n i = rcAt nodes i) := by
  have hstep := increment_step _ _ _ _ _ _ _ h
  refine ⟨hstep.1, hstep.2.2.1, fun i hi => ?_, fun i hi => ?_⟩
  · rw [hstep.2.2.2.2 i, if_pos]
    exact ⟨increment_fresh_complete h i hi, replicate_false_not_true _ _⟩
  · rw [hstep.2.2.2.2 i, if_neg]
    rintro ⟨hmark, _⟩
    rcases increment_sound _ _ _ _ _ _ _ h i hmark with hseen | hre
    · exact replicate_false_not_true _ _ hseen
    · exact hi hre

/-! ### Claim theorems -/

/-- Claim C1: the claim asserts that the refcount of every allocated vertex
stays nonnegative and the `refcount >= 0` assertion never fails, including
for cyclic dependency edges followed by a remove.  The code violates this:
after `upsert(1, payload, [slot 0 ↦ 1])` (a vertex depending on itself,
refcount 1), `remove_payload 1` computes the decrement `-(1 + 1) = -2`,
applies it to the vertex whose refcount is 1, and the assertion fires
(modelled by the `none` result).  This theorem evaluates the code at that
failing input. -/
theorem c1_self_cycle_remove_hits_refcount_assert :
    set_payload (new : DependencyGraph Nat Nat) 1 [⟨0, some 1⟩] 10 =
      some ⟨[some ⟨1, 1, some 10, [some 0]⟩], []⟩ ∧
    remove_payload (⟨[some ⟨1, 1, some 10, [some 0]⟩], []⟩ : DependencyGraph Nat Nat) 1 =
      none ∧
    (1 : Int) + (0 - ((1 : Int) + 1)) < 0 := by
  refine ⟨by decide, by decide, by decide⟩

/-- Claim C2, counterexample: the claim asserts no allocated vertex is ever
simultaneously phantom and of refcount 0.  But after `upsert(1, payload,
[slot 0 ↦ 2])` (which creates vertex 2 as a phantom with refcount 1) and
`remove_payload 1` (which propagates the decrement −1 into vertex 2), slot 1
still holds the phantom node `⟨2, refcount 0, no payload, no relations⟩` —
allocated, phantom, refcount 0; the code never frees a vertex from inside
the propagator. -/
theorem c2_phantom_refcount_zero_persists :
    set_payload (new : DependencyGraph Nat Nat) 1 [⟨0, some 2⟩] 9 =
      some ⟨[some ⟨1, 0, some 9, [some 1]⟩, some ⟨2, 1, none, []⟩], []⟩ ∧
    remove_payload
      (⟨[some ⟨1, 0, some 9, [some 1]⟩, some ⟨2, 1, none, []⟩], []⟩ :
        DependencyGraph Nat Nat) 1 =
      some ⟨[none, some ⟨2, 0, none, []⟩], [0]⟩ ∧
    (⟨[none, some ⟨2, 0, none, []⟩], [0]⟩ :
        DependencyGraph Nat Nat).nodes.get? 1 = some (some ⟨2, 0, none, []⟩) := by
  refine ⟨by decide, by decide, by decide⟩

/-- Claim C2, amended: a decrement (or any delta) propagated by the
refcount propagator never frees any vertex slot — propagation changes only
refcounts, preserving the slot vector's length and each slot's allocation
status, key, payload and relations.  A phantom vertex driven to refcount 0
therefore remains allocated until an explicit `remove_payload` of its key
or reuse of its slot. -/
theorem c2_propagated_delta_never_frees [DecidableEq K] (fuel : Nat)
    (nodes : List (Option (Node K P))) (node_id : Nat) (delta : Int)
    (seen : List Bool) (n : List (Option (Node K P))) (s : List Bool)
    (h : increment fuel nodes node_id delta seen = .ok n s) :
    n.length = nodes.length ∧ ∀ i, shapeAt n i = shapeAt nodes i :=
  ⟨(increment_step _ _ _ _ _ _ _ h).1, (increment_step _ _ _ _ _ _ _ h).2.2.1⟩

theorem c2_propagated_delta_never_frees_witness :
    ([some (⟨2, 0, none, []⟩ : Node Nat Nat)] : List (Option (Node Nat Nat))).length =
      ([some (⟨2, 1, none, []⟩ : Node Nat Nat)] : List (Option (Node Nat Nat))).length ∧
    ∀ i, shapeAt [some (⟨2, 0, none, []⟩ : Node Nat Nat)] i =
      shapeAt [some (⟨2, 1, none, []⟩ : Node Nat Nat)] i :=
  c2_propagated_delta_never_frees 2 [some ⟨2, 1, none, []⟩] 0 (-1) [false]
    [some ⟨2, 0, none, []⟩] [true] (by decide)

/-- Claim C6: for the insertion sequence `1→[]`, `2→[1]`, `3→[]`, `4→[3]`
followed by re-inserting `2` repointed to `4`, the repoint backs out 2's
old contribution to 1 (refcount of 1 returns to 0) and adds it to 4's chain
(refcounts: 4 ↦ 1, 3 ↦ 2) without double-counting, and the iterator yields
exactly the keys 3, 4, 2, 1 in that order (C, D, B, A). -/
theorem c6_repoint_final_order :
    ((((((some (new : DependencyGraph Nat Nat)).bind
      (fun g => set_payload g 1 [] 11)).bind
      (fun g => set_payload g 2 [⟨0, some 1⟩] 12)).bind
      (fun g => set_payload g 3 [] 13)).bind
      (fun g => set_payload g 4 [⟨0, some 3⟩] 14)).bind
      (fun g => set_payload g 2 [⟨0, some 4⟩] 15)) =
      some ⟨[some ⟨1, 0, some 11, []⟩, some ⟨2, 0, some 15, [some 3]⟩,
             some ⟨3, 2, some 13, []⟩, some ⟨4, 1, some 14, [some 2]⟩], []⟩ ∧
    iterKeys (⟨[some ⟨1, 0, some 11, []⟩, some ⟨2, 0, some 15, [some 3]⟩,
             some ⟨3, 2, some 13, []⟩, some ⟨4, 1, some 14, [some 2]⟩], []⟩ :
      DependencyGraph Nat Nat) = some [3, 4, 2, 1] := by
  refine ⟨by decide, by decide⟩

/-- Claim C7: for the insertion sequence `1→[]`, `2→[1]`, `3→[2]`, `4→[3]`,
removing key 2 tombstones vertex 2 (phantom, still referenced by 3), drives
vertex 1's refcount to exactly 0, and the iterator then yields exactly the
keys 3, 4, 1 in that order (C, D, A) — key 2 is not among them even though
3's edge to the phantom 2 is still present. -/
theorem c7_remove_with_continued_reference :
    (((((some (new : DependencyGraph Nat Nat)).bind
      (fun g => set_payload g 1 [] 11)).bind
      (fun g => set_payload g 2 [⟨0, some 1⟩] 12)).bind
      (fun g => set_payload g 3 [⟨0, some 2⟩] 13)).bind
      (fun g => set_payload g 4 [⟨0, some 3⟩] 14)).bind
      (fun g => remove_payload g 2) =
      some ⟨[some ⟨1, 0, some 11, []⟩, some ⟨2, 2, none, []⟩,
             some ⟨3, 1, some 13, [some 1]⟩, some ⟨4, 0, some 14, [some 2]⟩], []⟩ ∧
    iterKeys (⟨[some ⟨1, 0, some 11, []⟩, some ⟨2, 2, none, []⟩,
             some ⟨3, 1, some 13, [some 1]⟩, some ⟨4, 0, some 14, [some 2]⟩], []⟩ :
      DependencyGraph Nat Nat) = some [3, 4, 1] ∧
    rcAt ([some ⟨1, 0, some 11, []⟩, some ⟨2, 2, none, []⟩,
           some ⟨3, 1, some 13, [some 1]⟩, some ⟨4, 0, some 14, [some 2]⟩] :
      List (Option (Node Nat Nat))) 0 = some 0 ∧
    ¬ (2 : Nat) ∈ [3, 4, 1] := by
  refine ⟨by decide, by decide, by decide, by decide⟩

/-- Claim C8: inserting `1→[4]` while no vertex for 4 exists yet (4 is
created as a phantom forward reference), then `2→[1]`, `3→[2]`, `4→[]`,
makes the iterator yield exactly the keys 4, 1, 2, 3 in that order
(D, A, B, C). -/
theorem c8_forward_reference_order :
    ((((some (new : DependencyGraph Nat Nat)).bind
      (fun g => set_payload g 1 [⟨0, some 4⟩] 11)).bind
      (fun g => set_payload g 2 [⟨0, some 1⟩] 12)).bind
      (fun g => set_payload g 3 [⟨0, some 2⟩] 13)).bind
      (fun g => set_payload g 4 [] 14) =
      some ⟨[some ⟨1, 2, some 11, [some 1]⟩, some ⟨4, 3, some 14, []⟩,
             some ⟨2, 1, some 12, [some 0]⟩, some ⟨3, 0, some 13, [some 2]⟩], []⟩ ∧
    iterKeys (⟨[some ⟨1, 2, some 11, [some 1]⟩, some ⟨4, 3, some 14, []⟩,
             some ⟨2, 1, some 12, [some 0]⟩, some ⟨3, 0, some 13, [some 2]⟩], []⟩ :
      DependencyGraph Nat Nat) = some [4, 1, 2, 3] := by
  refine ⟨by decide, by decide⟩

/-! ### Length monotonicity of the mutating operations -/

theorem assert_node_len [DecidableEq K] (g : DependencyGraph K P) (key : K) :
    g.nodes.length ≤ (assert_node g key).2.nodes.length := by
  unfold assert_node
  cases hf : g.nodes.findIdx? (keyPred key) with
  | some nid => exact Nat.le_refl _
  | none =>
    cases hv : g.vacancies.getLast? with
    | some nid => simp [List.length_set]
    | none => simp

theorem set_relation_incr_len [DecidableEq K] {vac2 : List Nat}
    {nodes3 : List (Option (Node K P))} {t : Nat} {inc : Int}
    {g' : DependencyGraph K P}
    (h : set_relation_incr vac2 nodes3 t inc = some g') :
    g'.nodes.length = nodes3.length := by
  unfold set_relation_incr at h
  cases hI : increment (nodes3.length + 1) nodes3 t inc
      (List.replicate nodes3.length false) with
  | ok ns ss =>
    rw [hI] at h
    injection h with h'
    subst h'
    exact (increment_step _ _ _ _ _ _ _ hI).1
  | fatal => rw [hI] at h; exact Option.noConfusion h
  | fuelOut => rw [hI] at h; exact Option.noConfusion h

theorem set_relation_write_len [DecidableEq K] {vac : List Nat}
    {nodes1 : List (Option (Node K P))} {node_id : Nat} {link : RelationLink K}
    {g' : DependencyGraph K P}
    (h : set_relation_write vac nodes1 node_id link = some g') :
    nodes1.length ≤ g'.nodes.length := by
  unfold set_relation_write at h
  split at h
  next key hk =>
    split at h
    next new_rel_node_id g2 hA =>
      have hlen1 : nodes1.length ≤ g2.nodes.length := by
        have := assert_node_len (⟨nodes1, vac⟩ : DependencyGraph K P) key
        rw [hA] at this
        exact this
      split at h
      next nd2 hg =>
        have h2 := set_relation_incr_len h
        simp only [slotWritten, List.length_set] at h2
        omega
      next hg => exact Option.noConfusion h
  next hk =>
    split at h
    next nd2 hg =>
      injection h with h'
      subst h'
      simp [slotWritten, List.length_set]
    next hg => exact Option.noConfusion h

theorem set_relation_go_len [DecidableEq K] {g : DependencyGraph K P}
    {node_id : Nat} {link : RelationLink K} {remove : Option (Nat × Int)}
    {g' : DependencyGraph K P}
    (h : set_relation_go g node_id link remove = some g') :
    g.nodes.length ≤ g'.nodes.length := by
  unfold set_relation_go at h
  cases remove with
  | none => exact set_relation_write_len h
  | some pr =>
    cases pr with
    | mk rel_node_id dec =>
      simp only [] at h
      split at h
      next ns ss hI =>
        have hl : ns.length = g.nodes.length := (increment_step _ _ _ _ _ _ _ hI).1
        have := set_relation_write_len h
        omega
      next e hne => exact Option.noConfusion h

theorem set_relation_len [DecidableEq K] {g : DependencyGraph K P}
    {node_id : Nat} {link : RelationLink K} {g' : DependencyGraph K P}
    (h : set_relation g node_id link = some g') :
    g.nodes.length ≤ g'.nodes.length := by
  unfold set_relation at h
  split at h
  next nd hv =>
    split at h
    next rel_node_id hocc =>
      split at h
      next rel_nd ho =>
        split at h
        · injection h with h'
          subst h'
          exact Nat.le_refl _
        · exact set_relation_go_len h
      next ho => exact Option.noConfusion h
    next hocc => exact set_relation_go_len h
  next hv => exact Option.noConfusion h

theorem set_relation_foldl_none [DecidableEq K] (node_id : Nat) :
    ∀ (deps : List (RelationLink K)),
      deps.foldl
        (fun acc link => acc.bind (fun g => set_relation (P := P) g node_id link))
        none = none := by
  intro deps
  induction deps with
  | nil => rfl
  | cons d ds ih => simpa using ih

theorem set_relation_foldl_len [DecidableEq K] (node_id : Nat) :
    ∀ (deps : List (RelationLink K)) (g0 g' : DependencyGraph K P),
      deps.foldl
        (fun acc link => acc.bind (fun g => set_relation g node_id link))
        (some g0) = some g' →
      g0.nodes.length ≤ g'.nodes.length := by
  intro deps
  induction deps with
  | nil =>
    intro g0 g' h
    injection h with h'
    subst h'
    exact Nat.le_refl _
  | cons d ds ih =>
    intro g0 g' h
    rw [List.foldl_cons] at h
    simp only [Option.some_bind] at h
    cases hd : set_relation g0 node_id d with
    | none =>
      rw [hd] at h
      rw [set_relation_foldl_none] at h
      exact Option.noConfusion h
    | some g1 =>
      rw [hd] at h
      exact Nat.le_trans (set_relation_len hd) (ih g1 g' h)

theorem set_payload_len [DecidableEq K] {g : DependencyGraph K P} {key : K}
    {deps : List (RelationLink K)} {p : P} {g' : DependencyGraph K P}
    (h : set_payload g key deps p = some g') :
    g.nodes.length ≤ g'.nodes.length := by
  unfold set_payload at h
  split at h
  next node_id g1 hA =>
    have hlen1 : g.nodes.length ≤ g1.nodes.length := by
      have := assert_node_len g key
      rw [hA] at this
      exact this
    split at h
    · exact Option.noConfusion h
    · exact Nat.le_trans hlen1 (set_relation_foldl_len _ _ _ _ h)
    next nd hg =>
      have := set_relation_foldl_len _ _ _ _ h
      simp only [List.length_set] at this
      omega

theorem remove_decrements_len [DecidableEq K] (nodes_len : Nat) (decrement : Int) :
    ∀ (relations : List Nat) (ns0 ns : List (Option (Node K P))),
      remove_decrements nodes_len decrement relations ns0 = some ns →
      ns.length = ns0.length := by
  intro relations
  induction relations with
  | nil =>
    intro ns0 ns h
    injection h with h'
    subst h'
    rfl
  | cons r rs ih =>
    intro ns0 ns h
    unfold remove_decrements at h ih
    rw [List.foldl_cons] at h
    simp only [Option.some_bind] at h
    cases hI : increment (nodes_len + 1) ns0 r decrement
        (List.replicate nodes_len false) with
    | ok ns2 ss =>
      rw [hI] at h
      have := ih ns2 ns h
      rw [this, (increment_step _ _ _ _ _ _ _ hI).1]
    | fatal =>
      rw [hI] at h
      have habs : ∀ (l : List Nat), l.foldl
          (fun acc rel_node_id => acc.bind (fun ns => match increment (K := K) (P := P)
            (nodes_len + 1) ns rel_node_id decrement (List.replicate nodes_len false) with
            | .ok ns2 _ => some ns2
            | _ => none)) none = none := by
        intro l
        induction l with
        | nil => rfl
        | cons a as iha => simpa using iha
      rw [habs] at h
      exact Option.noConfusion h
    | fuelOut =>
      rw [hI] at h
      have habs : ∀ (l : List Nat), l.foldl
          (fun acc rel_node_id => acc.bind (fun ns => match increment (K := K) (P := P)
            (nodes_len + 1) ns rel_node_id decrement (List.replicate nodes_len false) with
            | .ok ns2 _ => some ns2
            | _ => none)) none = none := by
        intro l
        induction l with
        | nil => rfl
        | cons a as iha => simpa using iha
      rw [habs] at h
      exact Option.noConfusion h

theorem remove_payload_len [DecidableEq K] {g : DependencyGraph K P} {key : K}
    {g' : DependencyGraph K P}
    (h : remove_payload g key = some g') :
    g.nodes.length ≤ g'.nodes.length := by
  unfold remove_payload at h
  split at h
  · injection h with h'
    subst h'
    exact Nat.le_refl _
  next node_id hf =>
    split at h
    next nd hg =>
      cases hD : remove_decrements g.nodes.length (0 - (nd.refcount + 1))
          (nd.relations.filterMap id)
          (if nd.refcount = 0 then g.nodes.set node_id none
           else g.nodes.set node_id
             (some { nd with payload := none, relations := [] })) with
      | none => rw [hD] at h; exact Option.noConfusion h
      | some ns =>
        rw [hD] at h
        injection h with h'
        subst h'
        have := remove_decrements_len _ _ _ _ _ hD
        by_cases h0 : nd.refcount = 0
        · rw [if_pos h0] at this
          simp [this, List.length_set]
        · rw [if_neg h0] at this
          simp [this, List.length_set]
    next hg => exact Option.noConfusion h

/-- Claim C9: for a key not present in the graph (no allocated slot holds a
node with that key), `remove_payload` is a no-op returning the graph
unchanged and `get_payload` returns `none`; neither hits a fatal path.  The
embedding is purely functional, so "without modifying any state" is the
returned-unchanged equality (the Rust `get_payload` takes `&mut self` but
only reads). -/
theorem c9_absent_key_get_and_remove_are_noops [DecidableEq K]
    (g : DependencyGraph K P) (k : K)
    (habs : ∀ x ∈ g.nodes, keyPred (P := P) k x = false) :
    get_payload g k = none ∧ remove_payload g k = some g := by
  constructor
  · unfold get_payload
    rw [List.find?_eq_none.mpr (fun x hx => by rw [habs x hx]; simp)]
  · unfold remove_payload
    rw [List.findIdx?_eq_none_iff.mpr habs]

theorem c9_absent_key_witness :
    get_payload (⟨[some ⟨1, 0, some 5, []⟩], []⟩ : DependencyGraph Nat Nat) 2 = none ∧
    remove_payload (⟨[some ⟨1, 0, some 5, []⟩], []⟩ : DependencyGraph Nat Nat) 2 =
      some ⟨[some ⟨1, 0, some 5, []⟩], []⟩ :=
  c9_absent_key_get_and_remove_are_noops
    (⟨[some ⟨1, 0, some 5, []⟩], []⟩ : DependencyGraph Nat Nat) 2 (by decide)

/-- Claim C10: `len` returns the length of the underlying slot vector —
which counts vacant (freed) slots and phantom placeholders as well as
resident entries — and the slot vector never shrinks under `set_payload` or
`remove_payload`; concretely, `upsert(1, 5, [])` then `remove(1)` on a
fresh graph frees slot 0 yet leaves `len = 1` and `is_empty = false` while
the iterator yields nothing. -/
theorem c10_len_counts_all_slots_and_never_decreases :
    (∀ (K P : Type) (g : DependencyGraph K P), len g = g.nodes.length) ∧
    (∀ (K P : Type) (inst : DecidableEq K) (g : DependencyGraph K P) (k : K)
      (deps : List (RelationLink K)) (p : P) (g' : DependencyGraph K P),
      set_payload g k deps p = some g' → len g ≤ len g') ∧
    (∀ (K P : Type) (inst : DecidableEq K) (g : DependencyGraph K P) (k : K)
      (g' : DependencyGraph K P),
      remove_payload g k = some g' → len g ≤ len g') ∧
    ((some (new : DependencyGraph Nat Nat)).bind
      (fun g => set_payload g 1 [] 5)).bind (fun g => remove_payload g 1) =
      some ⟨[none], [0]⟩ ∧
    len (⟨[none], [0]⟩ : DependencyGraph Nat Nat) = 1 ∧
    is_empty (⟨[none], [0]⟩ : DependencyGraph Nat Nat) = false ∧
    iterKeys (⟨[none], [0]⟩ : DependencyGraph Nat Nat) = some [] := by
  refine ⟨fun K P g => rfl, ?_, ?_, by decide, by decide, by decide, by decide⟩
  · intro K P inst g k deps p g' h
    exact set_payload_len h
  · intro K P inst g k g' h
    exact remove_payload_len h

theorem c10_len_witness :
    len (⟨[some ⟨1, 0, some 5, []⟩], []⟩ : DependencyGraph Nat Nat) ≤
      len (⟨[none], [0]⟩ : DependencyGraph Nat Nat) :=
  c10_len_counts_all_slots_and_never_decreases.2.2.1 Nat Nat inferInstance
    (⟨[some ⟨1, 0, some 5, []⟩], []⟩ : DependencyGraph Nat Nat) 1
    (⟨[none], [0]⟩ : DependencyGraph Nat Nat) (by decide)

/-- Claim C5: the refcount propagator terminates on every graph — with fuel
at least `countFalse seen + 1` (which the wrappers' `nodes.length + 1`
always is for the fresh seen vectors the source allocates) the out-of-fuel
marker is unreachable; a vertex already in the seen set is not visited
again (immediate bail-out, state unchanged); within one fresh-seen
propagation each reachable vertex receives the delta exactly once and
unreachable vertices are untouched; and the concrete self-cycle insertion
terminates with refcount 1, not 2 (no double-counting along the cycle). -/
theorem c5_propagator_terminates_and_applies_delta_once :
    (∀ (K P : Type) (inst : DecidableEq K) (fuel : Nat)
      (nodes : List (Option (Node K P))) (node_id : Nat) (delta : Int)
      (seen : List Bool), countFalse seen + 1 ≤ fuel →
      increment fuel nodes node_id delta seen ≠ .fuelOut) ∧
    (∀ (K P : Type) (inst : DecidableEq K) (fuel : Nat)
      (nodes : List (Option (Node K P))) (node_id : Nat) (delta : Int)
      (seen : List Bool), seen.get? node_id = some true →
      increment (fuel + 1) nodes node_id delta seen = .ok nodes seen) ∧
    (∀ (K P : Type) (inst : DecidableEq K) (fuel : Nat)
      (nodes : List (Option (Node K P))) (root : Nat) (delta : Int)
      (n : List (Option (Node K P))) (s : List Bool),
      increment fuel nodes root delta (List.replicate nodes.length false) = .ok n s →
      (∀ i, Reaches nodes root i →
        rcAt n i = (rcAt nodes i).map (fun x => x + delta)) ∧
      (∀ i, ¬ Reaches nodes root i → rcAt n i = rcAt nodes i)) ∧
    set_payload (new : DependencyGraph Nat Nat) 1 [⟨0, some 1⟩] 7 =
      some ⟨[some ⟨1, 1, some 7, [some 0]⟩], []⟩ := by
  refine ⟨?_, ?_, ?_, by decide⟩
  · intro K P inst fuel nodes node_id delta seen hf
    exact increment_no_fuelOut fuel nodes node_id delta seen hf
  · intro K P inst fuel nodes node_id delta seen hs
    exact increment_bail fuel nodes node_id delta seen hs
  · intro K P inst fuel nodes root delta n s h
    exact ⟨(increment_fresh_spec h).2.2.1, (increment_fresh_spec h).2.2.2⟩

theorem c5_propagator_witness :
    increment 2 [some (⟨1, 0, none, []⟩ : Node Nat Nat)] 0 5 [false] ≠
      IncrOut.fuelOut ∧
    increment 3 [some (⟨1, 0, none, []⟩ : Node Nat Nat)] 0 5 [true] =
      IncrOut.ok [some (⟨1, 0, none, []⟩ : Node Nat Nat)] [true] :=
  ⟨c5_propagator_terminates_and_applies_delta_once.1 Nat Nat inferInstance
      2 [some ⟨1, 0, none, []⟩] 0 5 [false] (by decide),
    c5_propagator_terminates_and_applies_delta_once.2.1 Nat Nat inferInstance
      2 [some ⟨1, 0, none, []⟩] 0 5 [true] (by decide)⟩

/-- Claim C4: a `set_relation` call on vertex `v` and slot `s` whose new
dependency key equals the key of the slot's current occupant returns on the
no-op fast path with the whole graph state — every vertex's refcount,
payload, edges, and the free list — unchanged; consequently re-writing the
same relation twice (and hence any number of times) equals writing it
once. -/
theorem c4_same_key_write_is_noop [DecidableEq K] (g : DependencyGraph K P)
    (v s : Nat) (nd : Node K P) (o : Nat) (ond : Node K P)
    (hv : g.nodes.get? v = some (some nd))
    (hocc : nd.relations.get? s = some (some o))
    (ho : g.nodes.get? o = some (some ond)) :
    set_relation g v ⟨s, some ond.key⟩ = some g ∧
    (set_relation g v ⟨s, some ond.key⟩).bind
      (fun g1 => set_relation g1 v ⟨s, some ond.key⟩) = some g := by
  have h1 : set_relation g v ⟨s, some ond.key⟩ = some g := by
    simp only [set_relation, hv, hocc, ho]
    simp
  exact ⟨h1, by rw [h1, Option.some_bind, h1]⟩

theorem c4_same_key_write_witness :
    set_relation
      (⟨[some ⟨1, 0, some 11, []⟩, some ⟨2, 0, some 15, [some 3]⟩,
         some ⟨3, 2, some 13, []⟩, some ⟨4, 1, some 14, [some 2]⟩], []⟩ :
        DependencyGraph Nat Nat) 1 ⟨0, some 4⟩ =
      some ⟨[some ⟨1, 0, some 11, []⟩, some ⟨2, 0, some 15, [some 3]⟩,
         some ⟨3, 2, some 13, []⟩, some ⟨4, 1, some 14, [some 2]⟩], []⟩ :=
  (c4_same_key_write_is_noop
    (⟨[some ⟨1, 0, some 11, []⟩, some ⟨2, 0, some 15, [some 3]⟩,
       some ⟨3, 2, some 13, []⟩, some ⟨4, 1, some 14, [some 2]⟩], []⟩ :
      DependencyGraph Nat Nat) 1 0 ⟨2, 0, some 15, [some 3]⟩ 3
    ⟨4, 1, some 14, [some 2]⟩ (by decide) (by decide) (by decide)).1

/-- Claim C3: when `set_relation` writes slot `s` of vertex `v` and the
slot's previous occupant `o` differs from the new target key `lk`, the run
decomposes exactly as the claim states: the delta `-(1 + refcount v)` is
applied to `o` and once each to every vertex transitively reachable from
`o` (all other refcounts untouched, no structure changed); then, when a new
key is supplied, the target vertex is asserted/created, written into slot
`s` (growing the slot array as needed, `slotWritten`/`padTo`), and the
delta `+(1 + refcount v)` — with `refcount v` re-read after the decrement —
is applied to it and once each to every vertex transitively reachable from
it; when the new key is absent the slot is left empty after the
decrement. -/
theorem c3_set_relation_repoint_spec [DecidableEq K] (g : DependencyGraph K P)
    (v s : Nat) (lk : Option K) (nd : Node K P) (o : Nat) (ond : Node K P)
    (g' : DependencyGraph K P)
    (hv : g.nodes.get? v = some (some nd))
    (hocc : nd.relations.get? s = some (some o))
    (ho : g.nodes.get? o = some (some ond))
    (hne : ¬ (some ond.key : Option K) = lk)
    (hrun : set_relation g v ⟨s, lk⟩ = some g') :
    ∃ n1 s1,
      increment (g.nodes.length + 1) g.nodes o (0 - (1 + nd.refcount))
        (List.replicate g.nodes.length false) = .ok n1 s1 ∧
      (∀ i, Reaches g.nodes o i →
        rcAt n1 i = (rcAt g.nodes i).map (fun x => x + (0 - (1 + nd.refcount)))) ∧
      (∀ i, ¬ Reaches g.nodes o i → rcAt n1 i = rcAt g.nodes i) ∧
      (∀ i, shapeAt n1 i = shapeAt g.nodes i) ∧
      (lk = none →
        ∃ nd1, n1.get? v = some (some nd1) ∧
          g' = ⟨slotWritten n1 v nd1 s none, g.vacancies⟩) ∧
      (∀ k, lk = some k →
        ∃ t g2 nd2 n3 s3,
          assert_node (⟨n1, g.vacancies⟩ : DependencyGraph K P) k = (t, g2) ∧
          g2.nodes.get? v = some (some nd2) ∧
          increment ((slotWritten g2.nodes v nd2 s (some t)).length + 1)
            (slotWritten g2.nodes v nd2 s (some t)) t (1 + nd2.refcount)
            (List.replicate (slotWritten g2.nodes v nd2 s (some t)).length false) =
            .ok n3 s3 ∧
          (∀ i, Reaches (slotWritten g2.nodes v nd2 s (some t)) t i →
            rcAt n3 i = (rcAt (slotWritten g2.nodes v nd2 s (some t)) i).map
              (fun x => x + (1 + nd2.refcount))) ∧
          (∀ i, ¬ Reaches (slotWritten g2.nodes v nd2 s (some t)) t i →
            rcAt n3 i = rcAt (slotWritten g2.nodes v nd2 s (some t)) i) ∧
          g' = ⟨n3, g2.vacancies⟩) := by
  simp only [set_relation, hv, hocc, ho] at hrun
  rw [if_neg hne] at hrun
  unfold set_relation_go at hrun
  split at hrun
  next heq => exact Option.noConfusion heq
  next rel_node_id dec heq =>
  injection heq with heq'
  injection heq' with heqo heqd
  subst heqo
  subst heqd
  split at hrun
  next n1 s1 hI =>
    have hspec := increment_fresh_spec hI
    refine ⟨n1, s1, hI, hspec.2.2.1, hspec.2.2.2, hspec.2.1, ?_, ?_⟩
    · intro hlk
      subst hlk
      unfold set_relation_write at hrun
      simp only [] at hrun
      split at hrun
      next nd1 hg1 =>
        injection hrun with h'
        exact ⟨nd1, hg1, h'.symm⟩
      next hg1 => exact Option.noConfusion hrun
    · intro k hlk
      subst hlk
      unfold set_relation_write at hrun
      simp only [] at hrun
      rcases hA : assert_node (⟨n1, g.vacancies⟩ : DependencyGraph K P) k with ⟨t, g2⟩
      rw [hA] at hrun
      simp only [] at hrun
      split at hrun
      next nd2 hg2 =>
        unfold set_relation_incr at hrun
        split at hrun
        next n3 s3 hI2 =>
          injection hrun with h'
          exact ⟨t, g2, nd2, n3, s3, rfl, hg2, hI2,
            (increment_fresh_spec hI2).2.2.1, (increment_fresh_spec hI2).2.2.2, h'.symm⟩
        next e hne2 => exact Option.noConfusion hrun
      next hg2 => exact Option.noConfusion hrun
  next e hne1 => exact Option.noConfusion hrun

/-- The pre-repoint state for the C3 witness: vertices 1,2,3,4 with
2's slot 0 pointing at vertex 0 (key 1). -/
def c3ExampleGraph : DependencyGraph Nat Nat :=
  ⟨[some ⟨1, 1, some 11, []⟩, some ⟨2, 0, some 12, [some 0]⟩,
    some ⟨3, 1, some 13, []⟩, some ⟨4, 0, some 14, [some 2]⟩], []⟩

theorem c3_repoint_witness :
    ∃ n1 s1, increment (c3ExampleGraph.nodes.length + 1) c3ExampleGraph.nodes 0
      (0 - (1 + (0 : Int))) (List.replicate c3ExampleGraph.nodes.length false) =
      IncrOut.ok n1 s1 := by
  obtain ⟨n1, s1, h1, -⟩ := c3_set_relation_repoint_spec c3ExampleGraph 1 0 (some 4)
    ⟨2, 0, some 12, [some 0]⟩ 0 ⟨1, 1, some 11, []⟩
    (⟨[some ⟨1, 0, some 11, []⟩, some ⟨2, 0, some 12, [some 3]⟩,
       some ⟨3, 2, some 13, []⟩, some ⟨4, 1, some 14, [some 2]⟩], []⟩ :
      DependencyGraph Nat Nat)
    (by decide) (by decide) (by decide) (by decide) (by decide)
  exact ⟨n1, s1, h1⟩

/-! ### The iterator sort is the stable ascending sort

Rust's `sort_by` is a stable sort.  `sortByRefcount` is the stable
insertion sort; these lemmas record that it coincides with Mathlib's
`List.insertionSort` for the ascending-refcount relation, is sorted, and is
a permutation of its input — i.e. it computes exactly the stable
ascending-by-refcount reordering that `SubjectpayloadIter::new` produces. -/

theorem insSorted_eq_orderedInsert (x : Subjectpayload K P) :
    ∀ l, insSorted x l =
      List.orderedInsert (fun a b => a.refcount ≤ b.refcount) x l := by
  intro l
  induction l with
  | nil => rfl
  | cons y ys ih =>
    by_cases h : y.refcount < x.refcount
    · rw [insSorted, if_pos h, List.orderedInsert, if_neg (by omega), ih]
    · rw [insSorted, if_neg h, List.orderedInsert, if_pos (by omega)]

theorem sortByRefcount_eq_insertionSort (l : List (Subjectpayload K P)) :
    sortByRefcount l =
      List.insertionSort (fun a b => a.refcount ≤ b.refcount) l := by
  induction l with
  | nil => rfl
  | cons x xs ih =>
    unfold sortByRefcount at ih ⊢
    rw [List.foldr_cons, ih, List.insertionSort, insSorted_eq_orderedInsert]

theorem sortByRefcount_sorted (l : List (Subjectpayload K P)) :
    (sortByRefcount l).Sorted (fun a b => a.refcount ≤ b.refcount) := by
  rw [sortByRefcount_eq_insertionSort]
  haveI : IsTotal (Subjectpayload K P) (fun a b => a.refcount ≤ b.refcount) :=
    ⟨fun a b => Nat.le_total a.refcount b.refcount⟩
  haveI : IsTrans (Subjectpayload K P) (fun a b => a.refcount ≤ b.refcount) :=
    ⟨fun a b c hab hbc => Nat.le_trans hab hbc⟩
  exact List.sorted_insertionSort _ l

theorem sortByRefcount_perm (l : List (Subjectpayload K P)) :
    (sortByRefcount l).Perm l := by
  rw [sortByRefcount_eq_insertionSort]
  exact List.perm_insertionSort _ l

end DepGraph
